import Mathlib

/-!
Verification of the two containers of Jekwwer/IAL-Project02-2021: the binary
search tree (recursive variant `src/btree/rec/btree.c` and iterative variant
`src/btree/iter/btree.c`) and the chained hash table
(`src/hashtable/hashtable.c`).

Modelling conventions, fixed once for the whole file:

* A heap allocation is identified by a natural-number address (`addr`); each
  `malloc` in the C source corresponds to one address, and a function that
  calls `free` returns the list of addresses it freed.  Distinctness of the
  addresses of live allocations is an assumption of the C heap and appears as
  an explicit hypothesis where a statement needs it.
* A tree node (`bst_node_t`) carries its address, its `char` key (modelled as
  `Int`: `char` comparisons in C are integer comparisons) and its `int` value.
* A C string (`char *`) is modelled as `CStr`: the address of the buffer plus
  its content, the list of its bytes up to the terminating zero byte.  C
  pointer equality `p == q` on two live `char *` values is equality of their
  addresses.  On the project's target platform `char` is signed, so the byte
  `b` read through `char` has the integer value `b` for `b < 128` and
  `b - 256` otherwise.
* The C `int` is 32 bits on the target; where an `int` computation can
  exceed that range (the `get_hash` accumulator), each step is reduced into
  `[-2^31, 2^31 - 1]` by `wrap32` (two's-complement wraparound).
* A `while` loop whose state descends one node per iteration is rendered as
  structural recursion on the tree; a loop driven by an explicit stack is
  rendered as a step function on the stack with an explicit fuel argument,
  together with a proof that the fuel supplied by the top-level definition
  suffices.
* Allocation failure (`malloc` returning `NULL`) is not modelled: the claims
  under study concern the non-failing executions.
-/

namespace IalProj

/-- A `bst_node_t` tree (`src/btree/btree.h`): empty, or a node with the
address of its allocation, `char key`, `int value`, and the two subtrees. -/
inductive BTree where
  | nil : BTree
  | node (addr : Nat) (key : Int) (value : Int) (left : BTree) (right : BTree) : BTree
  deriving DecidableEq, Repr

namespace BTree

/-- Number of nodes. -/
def size : BTree → Nat
  | .nil => 0
  | .node _ _ _ l r => 1 + size l + size r

/-- Depth: number of nodes on the longest root-to-leaf path. -/
def depth : BTree → Nat
  | .nil => 0
  | .node _ _ _ l r => 1 + max (depth l) (depth r)

/-- The `right` field (`nil` has none; only applied to nodes). -/
def right : BTree → BTree
  | .nil => .nil
  | .node _ _ _ _ r => r

/-- The `key` field (dummy `0` on `nil`; only applied to nodes). -/
def keyOf : BTree → Int
  | .nil => 0
  | .node _ k _ _ _ => k

/-- The `value` field (dummy `0` on `nil`; only applied to nodes). -/
def valOf : BTree → Int
  | .nil => 0
  | .node _ _ v _ _ => v

/-- Addresses of all nodes (preorder). -/
def addrs : BTree → List Nat
  | .nil => []
  | .node a _ _ l r => a :: (addrs l ++ addrs r)

/-- Keys in in-order. -/
def inorderKeys : BTree → List Int
  | .nil => []
  | .node _ k _ l r => inorderKeys l ++ k :: inorderKeys r

end BTree

/-- `p` holds of every key of the tree. -/
def allKeys (p : Int → Bool) : BTree → Bool
  | .nil => true
  | .node _ k _ l r => p k && allKeys p l && allKeys p r

/-- The binary-search-tree invariant of `src/btree/btree.h`: every key of the
left subtree is strictly below the node's key and every key of the right
subtree strictly above. -/
def isBST : BTree → Bool
  | .nil => true
  | .node _ k _ l r =>
      allKeys (fun x => decide (x < k)) l && allKeys (fun x => decide (k < x)) r
        && isBST l && isBST r

/-! ## Recursive variant, `src/btree/rec/btree.c` -/

namespace BstRec

/-- `bst_search` (recursive): first tests `tree->key == key`, then descends
left on `key < tree->key`, else right.  Returns the value written through the
out-parameter, `none` when the function returns `false`. -/
def bst_search : BTree → Int → Option Int
  | .nil, _ => none
  | .node _ k v l r, key =>
      if k = key then some v
      else if key < k then bst_search l key
      else bst_search r key

/-- `bst_insert` (recursive).  `a` is the address `malloc` hands out if a new
node is allocated on this call. -/
def bst_insert (a : Nat) : BTree → Int → Int → BTree
  | .nil, key, value => .node a key value .nil .nil
  | .node a0 k v l r, key, value =>
      if key < k then .node a0 k v (bst_insert a l key value) r
      else if k < key then .node a0 k v l (bst_insert a r key value)
      else .node a0 k value l r

/-- Result of `bst_replace_by_rightmost`: the key and value copied into the
target, the subtree left behind, and the addresses freed. -/
structure RmRes where
  key : Int
  val : Int
  tree : BTree
  freed : List Nat
  deriving DecidableEq, Repr

/-- `bst_replace_by_rightmost` (recursive): walks to the rightmost node of the
subtree, copies its key/value into the target, and removes it with
`bst_delete(tree, rootPrt->key)`.  That nested `bst_delete` call is at the
root of the subtree it is given (the rightmost node itself, which has no right
child), so it deterministically takes the zero/one-child branch
`*tree = rootPrt->left; free(rootPrt)`; the equation for a node with `nil`
right child inlines exactly that branch (`bst_delete_at_rightmost` below
proves the inlining equal to a literal `bst_delete` call).  The `nil` equation
is unreachable (the C precondition requires a non-empty subtree). -/
def bst_replace_by_rightmost : BTree → RmRes
  | .nil => ⟨0, 0, .nil, []⟩
  | .node a k v l .nil => ⟨k, v, l, [a]⟩
  | .node a k v l (.node a2 k2 v2 l2 r2) =>
      let res := bst_replace_by_rightmost (.node a2 k2 v2 l2 r2)
      ⟨res.key, res.val, .node a k v l res.tree, res.freed⟩

/-- `bst_delete` (recursive): returns the new tree and the addresses freed. -/
def bst_delete : BTree → Int → BTree × List Nat
  | .nil, _ => (.nil, [])
  | .node a k v l r, key =>
      if key < k then
        let res := bst_delete l key
        (.node a k v res.1 r, res.2)
      else if k < key then
        let res := bst_delete r key
        (.node a k v l res.1, res.2)
      else
        match l, r with
        | .nil, .nil => (.nil, [a])
        | .nil, .node a3 k3 v3 l3 r3 => (.node a3 k3 v3 l3 r3, [a])
        | .node a2 k2 v2 l2 r2, .nil => (.node a2 k2 v2 l2 r2, [a])
        | .node a2 k2 v2 l2 r2, .node a3 k3 v3 l3 r3 =>
            let res := bst_replace_by_rightmost (.node a2 k2 v2 l2 r2)
            (.node a res.key res.val res.tree (.node a3 k3 v3 l3 r3), res.freed)

/-- `bst_dispose` (recursive): frees the left subtree, the right subtree, then
the root; returns the addresses freed, in order. -/
def bst_dispose : BTree → List Nat
  | .nil => []
  | .node a _ _ l r => bst_dispose l ++ bst_dispose r ++ [a]

/-- `bst_preorder` (recursive): the `[key,value]` pairs printed, in order. -/
def bst_preorder : BTree → List (Int × Int)
  | .nil => []
  | .node _ k v l r => (k, v) :: (bst_preorder l ++ bst_preorder r)

/-- `bst_inorder` (recursive). -/
def bst_inorder : BTree → List (Int × Int)
  | .nil => []
  | .node _ k v l r => bst_inorder l ++ (k, v) :: bst_inorder r

/-- `bst_postorder` (recursive). -/
def bst_postorder : BTree → List (Int × Int)
  | .nil => []
  | .node _ k v l r => bst_postorder l ++ bst_postorder r ++ [(k, v)]

end BstRec

/-! ## Iterative variant, `src/btree/iter/btree.c`

The `while` loops of `bst_search`, `bst_insert` and the find-loop of
`bst_delete` descend one node per iteration; they are rendered as structural
recursion on the tree, each equation mirroring one iteration of the loop.
The traversal and dispose loops are driven by the explicit stacks of
`src/btree/iter/stack.h`; they are rendered as fuel-indexed step functions on
the stack (the stack is a list, head = top), and the top-level definitions
supply fuel that the lemmas below prove sufficient. -/

namespace BstIter

/-- `bst_search` (iterative): per loop iteration, go left on
`key < tmpRoot->key`, right on `tmpRoot->key < key`, otherwise report the
value found. -/
def bst_search : BTree → Int → Option Int
  | .nil, _ => none
  | .node _ k v l r, key =>
      if key < k then bst_search l key
      else if k < key then bst_search r key
      else some v

/-- `bst_insert` (iterative): the descent loop, one equation per iteration;
on reaching an empty slot the new node (address `a`) is linked there. -/
def bst_insert (a : Nat) : BTree → Int → Int → BTree
  | .nil, key, value => .node a key value .nil .nil
  | .node a0 k v l r, key, value =>
      if key < k then .node a0 k v (bst_insert a l key value) r
      else if k < key then .node a0 k v l (bst_insert a r key value)
      else .node a0 k value l r

/-- The `while (rootPtr->right != NULL)` walk of the iterative
`bst_replace_by_rightmost`: key and value of the rightmost node.  The `nil`
equation is unreachable (the C caller passes a non-empty left subtree). -/
def rightmostSearch : BTree → Int × Int
  | .nil => (0, 0)
  | .node _ k v _ .nil => (k, v)
  | .node _ _ _ _ (.node a2 k2 v2 l2 r2) => rightmostSearch (.node a2 k2 v2 l2 r2)

/-- The body of the iterative `bst_delete` after its initial `bst_search`
found the key: the find-loop (`while (rootPtr->key != key)`) rendered one
iteration per equation, then the case split on the children, rewiring the
parent slot.  In the two-children case `bst_replace_by_rightmost(rootPtr,
&(rootPtr->left))` copies the rightmost key/value of the left subtree into
the node and issues `bst_delete(tree, rootPtr->key)` on the whole left
subtree; that nested call is written here with the wrapper's own body (its
initial `bst_search` then this function) so that the recursion stays
structural. -/
def deleteGo : BTree → Int → BTree × List Nat
  | .nil, _ => (.nil, [])
  | .node a k v l r, key =>
      if key < k then
        let res := deleteGo l key
        (.node a k v res.1 r, res.2)
      else if k < key then
        let res := deleteGo r key
        (.node a k v l res.1, res.2)
      else
        match l, r with
        | .nil, .nil => (.nil, [a])
        | .node a2 k2 v2 l2 r2, .nil => (.node a2 k2 v2 l2 r2, [a])
        | .nil, .node a3 k3 v3 l3 r3 => (.node a3 k3 v3 l3 r3, [a])
        | .node a2 k2 v2 l2 r2, .node a3 k3 v3 l3 r3 =>
            let kv := rightmostSearch (.node a2 k2 v2 l2 r2)
            let res :=
              if (bst_search (.node a2 k2 v2 l2 r2) kv.1).isNone
              then (BTree.node a2 k2 v2 l2 r2, ([] : List Nat))
              else deleteGo (.node a2 k2 v2 l2 r2) kv.1
            (.node a kv.1 kv.2 res.1 (.node a3 k3 v3 l3 r3), res.2)

/-- `bst_delete` (iterative): `if (!bst_search(rootPtr, key, &tmp)) return;`
then the find-loop and case split of `deleteGo`. -/
def bst_delete (t : BTree) (key : Int) : BTree × List Nat :=
  if (bst_search t key).isNone then (t, []) else deleteGo t key

/-- `bst_leftmost_preorder`: pushes each node while descending left and prints
it.  Returns the stack (head = top) and the `[key,value]` pairs printed. -/
def bst_leftmost_preorder : BTree → List BTree → List BTree × List (Int × Int)
  | .nil, st => (st, [])
  | .node a k v l r, st =>
      let res := bst_leftmost_preorder l (.node a k v l r :: st)
      (res.1, (k, v) :: res.2)

/-- The `while (!stack_bst_empty(stack))` loop of the iterative
`bst_preorder`: pop a node and continue with the leftmost descent of its
right child.  `fuel` bounds the number of iterations; `bst_preorder`
supplies `size` of the tree, which the lemmas prove sufficient. -/
def preLoop : Nat → List BTree → List (Int × Int)
  | 0, _ => []
  | _ + 1, [] => []
  | fuel + 1, t :: st =>
      let res := bst_leftmost_preorder t.right st
      res.2 ++ preLoop fuel res.1

/-- `bst_preorder` (iterative). -/
def bst_preorder (t : BTree) : List (Int × Int) :=
  let res := bst_leftmost_preorder t []
  res.2 ++ preLoop t.size res.1

/-- `bst_leftmost_inorder`: pushes each node while descending left (printing
nothing); returns the stack. -/
def bst_leftmost_inorder : BTree → List BTree → List BTree
  | .nil, st => st
  | .node a k v l r, st => bst_leftmost_inorder l (.node a k v l r :: st)

/-- The loop of the iterative `bst_inorder`: pop a node, print it, continue
with the leftmost descent of its right child. -/
def inLoop : Nat → List BTree → List (Int × Int)
  | 0, _ => []
  | _ + 1, [] => []
  | fuel + 1, t :: st =>
      (t.keyOf, t.valOf) :: inLoop fuel (bst_leftmost_inorder t.right st)

/-- `bst_inorder` (iterative). -/
def bst_inorder (t : BTree) : List (Int × Int) :=
  inLoop t.size (bst_leftmost_inorder t [])

/-- `bst_leftmost_postorder`: pushes each node paired with the flag `true`
("first visit") while descending left.  The C code keeps two stacks pushed
and popped in lock step; the model pairs them. -/
def bst_leftmost_postorder : BTree → List (BTree × Bool) → List (BTree × Bool)
  | .nil, st => st
  | .node a k v l r, st => bst_leftmost_postorder l ((.node a k v l r, true) :: st)

/-- The loop of the iterative `bst_postorder`: on a first visit, re-flag the
node `false` and descend into its right child; on a second visit, pop and
print. -/
def postLoop : Nat → List (BTree × Bool) → List (Int × Int)
  | 0, _ => []
  | _ + 1, [] => []
  | fuel + 1, (t, b) :: st =>
      if b then postLoop fuel (bst_leftmost_postorder t.right ((t, false) :: st))
      else (t.keyOf, t.valOf) :: postLoop fuel st

/-- `bst_postorder` (iterative). -/
def bst_postorder (t : BTree) : List (Int × Int) :=
  postLoop (2 * t.size) (bst_leftmost_postorder t [])

/-- The loop of the iterative `bst_dispose`: with the current subtree and the
stack as state, pop when the subtree is empty; otherwise push the right child
(when there is one), free the root and move left.  Returns the addresses
freed, in order. -/
def disposeLoop : Nat → BTree → List BTree → List Nat
  | 0, _, _ => []
  | _ + 1, .nil, [] => []
  | fuel + 1, .nil, s :: st => disposeLoop fuel s st
  | fuel + 1, .node a _ _ l r, st =>
      if r = .nil then a :: disposeLoop fuel l st
      else a :: disposeLoop fuel l (r :: st)

/-- `bst_dispose` (iterative). -/
def bst_dispose (t : BTree) : List Nat :=
  disposeLoop (2 * t.size + 1) t []

end BstIter

/-! ## Hash table, `src/hashtable/hashtable.c`

The table is `ht_item_t *[MAX_HT_SIZE]` with `MAX_HT_SIZE = 101` and the
global `int HT_SIZE = MAX_HT_SIZE`.  A bucket's chain of `ht_item_t` linked
through `next` is a list.  The allocator is a counter of fresh addresses kept
in the state; `ht_insert` performs two allocations (the entry, then the
`strdup` of the key). -/

/-- A `char *` string: buffer address and content (the bytes before the
terminating zero; each is in `1..255`).  C pointer comparison `p == q` of two
live strings is `p.addr = q.addr`. -/
structure CStr where
  addr : Nat
  content : List Nat
  deriving DecidableEq, Repr

/-- An `ht_item_t`: the address of the entry's own allocation, the stored
`char *key` (a `strdup` copy) and the `float value` (values are only ever
stored and returned, never computed with, so `Rat` stands in for `float`:
any value representable in `float` is modelled exactly). -/
structure HtItem where
  addr : Nat
  key : CStr
  value : Rat
  deriving DecidableEq, Repr

/-- One bucket's collision chain, first entry first. -/
abbrev HtChain := List HtItem

/-- The table plus the allocator counter (`next` = next fresh address). -/
structure HtState where
  table : Fin 101 → HtChain
  next : Nat

/-- `int HT_SIZE = MAX_HT_SIZE;` -/
def HT_SIZE : Int := 101

/-- The integer value of a key byte read through (signed) `char` on the
target platform. -/
def signedChar (b : Nat) : Int :=
  if b < 128 then (b : Int) else (b : Int) - 256

/-- Reduction of an integer into the target's 32-bit two's-complement `int`
range `[-2^31, 2^31 - 1]`, as an overflowing `int` addition wraps there. -/
def wrap32 (x : Int) : Int :=
  (x + 2 ^ 31) % 2 ^ 32 - 2 ^ 31

/-- The accumulator loop of `get_hash`: `result` is a 32-bit `int`, so each
`result += key[i]` addition wraps into the `int` range. -/
def hashAcc : List Nat → Int → Int
  | [], result => result
  | b :: rest, result => hashAcc rest (wrap32 (result + signedChar b))

/-- `get_hash`: `int result = 1`, add `key[i]` (a `char`) for every character
with 32-bit `int` arithmetic, return `result % HT_SIZE`.  C's `%` truncates
toward zero (`Int.tmod`), so the result is negative whenever the accumulated
sum is. -/
def get_hash (key : List Nat) : Int :=
  (hashAcc key 1).tmod HT_SIZE

/-- The bucket index actually used by the table operations.  Indexing
`(*table)[index]` with a negative `get_hash` result is out-of-bounds
(undefined behaviour in C); the `toNat`/`mod` here is a total stand-in that
every theorem below avoids relying on: table operations are only stated for
keys whose hash is in range (in particular all-ASCII keys). -/
def hashIdx (key : List Nat) : Fin 101 :=
  ⟨(get_hash key).toNat % 101, Nat.mod_lt _ (by norm_num)⟩

/-- The scan of one bucket's chain in `ht_search`: the comparison in the
source is `cellElement->key == key`, equality of the two `char *` pointers,
i.e. of their addresses. -/
def ht_search_chain (key : CStr) : HtChain → Option HtItem
  | [] => none
  | it :: rest =>
      if it.key.addr = key.addr then some it else ht_search_chain key rest

/-- `ht_search`: hash the key and scan that bucket's chain. -/
def ht_search (table : Fin 101 → HtChain) (key : CStr) : Option HtItem :=
  ht_search_chain key (table (hashIdx key.content))

/-- The in-place `element->value = value` of `ht_insert` when `ht_search`
found the key: overwrite the value of the first pointer-matching entry of the
bucket's chain. -/
def ht_update_chain (key : CStr) (value : Rat) : HtChain → HtChain
  | [] => []
  | it :: rest =>
      if it.key.addr = key.addr then { it with value := value } :: rest
      else it :: ht_update_chain key value rest

/-- `ht_insert`: if `ht_search` finds the key, overwrite that entry's value;
otherwise allocate a new entry (address `next`), `strdup` the key (fresh
buffer at address `next + 1`, same content) and prepend the entry to its
bucket's chain. -/
def ht_insert (s : HtState) (key : CStr) (value : Rat) : HtState :=
  match ht_search s.table key with
  | some _ =>
      let i := hashIdx key.content
      { s with table := fun j => if j = i then ht_update_chain key value (s.table j) else s.table j }
  | none =>
      let newElement : HtItem :=
        { addr := s.next, key := { addr := s.next + 1, content := key.content }, value := value }
      let i := hashIdx key.content
      { table := fun j => if j = i then newElement :: s.table j else s.table j,
        next := s.next + 2 }

/-- `ht_get`: `ht_search`, then the found entry's value. -/
def ht_get (s : HtState) (key : CStr) : Option Rat :=
  match ht_search s.table key with
  | some it => some it.value
  | none => none

/-- The deletion scan of `ht_delete`: on the first entry whose key pointer
equals `key` (`cellElement->key == key`), unlink it and `free(cellElement)` —
the entry's own allocation only; the `strdup`'d key buffer is not freed.
Returns the remaining chain and the addresses freed. -/
def ht_delete_chain (key : CStr) : HtChain → HtChain × List Nat
  | [] => ([], [])
  | it :: rest =>
      if it.key.addr = key.addr then (rest, [it.addr])
      else
        let res := ht_delete_chain key rest
        (it :: res.1, res.2)

/-- `ht_delete`: re-scan the key's bucket with a trailing predecessor
reference; returns the new state and the addresses freed. -/
def ht_delete (s : HtState) (key : CStr) : HtState × List Nat :=
  let i := hashIdx key.content
  let res := ht_delete_chain key (s.table i)
  ({ s with table := fun j => if j = i then res.1 else s.table j }, res.2)

/-- `ht_init`: every bucket head `NULL`. -/
def ht_init : Fin 101 → HtChain := fun _ => []

/-- `ht_delete_all`: for every bucket, free each entry's key buffer and the
entry, then reset the bucket; returns the new state and the addresses freed
(per entry: key buffer first, then the entry, as in the source). -/
def ht_delete_all (s : HtState) : HtState × List Nat :=
  ({ s with table := fun _ => [] },
    ((List.finRange 101).map
      (fun i => (s.table i).flatMap (fun it => [it.key.addr, it.addr]))).flatten)

/-- All entries of the table, bucket by bucket. -/
def ht_entries (table : Fin 101 → HtChain) : List HtItem :=
  ((List.finRange 101).map (fun i => table i)).flatten

/-! ## `NULL`-handle wrappers

Every exported function first checks its handle: `if (table == NULL) return …`
in `hashtable.c`, `if (tree == NULL) return;` in both btree variants.  The
handle (`ht_table_t *`, resp. `bst_node_t **`) is modelled as an `Option`:
`none` is the `NULL` handle, `some` a valid handle to the state behind it. -/

/-- `ht_init` on a possibly-`NULL` `ht_table_t *`. -/
def ht_init' : Option HtState → Option HtState
  | none => none
  | some s => some { s with table := ht_init }

/-- `ht_search` on a possibly-`NULL` handle. -/
def ht_search' : Option HtState → CStr → Option HtItem
  | none, _ => none
  | some s, key => ht_search s.table key

/-- `ht_insert` on a possibly-`NULL` handle. -/
def ht_insert' : Option HtState → CStr → Rat → Option HtState
  | none, _, _ => none
  | some s, key, value => some (ht_insert s key value)

/-- `ht_get` on a possibly-`NULL` handle. -/
def ht_get' : Option HtState → CStr → Option Rat
  | none, _ => none
  | some s, key => ht_get s key

/-- `ht_delete` on a possibly-`NULL` handle. -/
def ht_delete' : Option HtState → CStr → Option (HtState × List Nat)
  | none, _ => none
  | some s, key => some (ht_delete s key)

/-- `ht_delete_all` on a possibly-`NULL` handle. -/
def ht_delete_all' : Option HtState → Option (HtState × List Nat)
  | none => none
  | some s => some (ht_delete_all s)

/-- `bst_init` on a possibly-`NULL` `bst_node_t **` (both variants). -/
def bst_init' : Option BTree → Option BTree
  | none => none
  | some _ => some .nil

/-- Recursive `bst_insert` on a possibly-`NULL` handle. -/
def bst_insert_rec' (a : Nat) : Option BTree → Int → Int → Option BTree
  | none, _, _ => none
  | some t, key, value => some (BstRec.bst_insert a t key value)

/-- Recursive `bst_delete` on a possibly-`NULL` handle. -/
def bst_delete_rec' : Option BTree → Int → Option (BTree × List Nat)
  | none, _ => none
  | some t, key => some (BstRec.bst_delete t key)

/-- Recursive `bst_dispose` on a possibly-`NULL` handle (result: the freed
addresses; the tree behind the handle becomes empty). -/
def bst_dispose_rec' : Option BTree → Option (List Nat)
  | none => none
  | some t => some (BstRec.bst_dispose t)

/-- Iterative `bst_insert` on a possibly-`NULL` handle. -/
def bst_insert_iter' (a : Nat) : Option BTree → Int → Int → Option BTree
  | none, _, _ => none
  | some t, key, value => some (BstIter.bst_insert a t key value)

/-- Iterative `bst_delete` on a possibly-`NULL` handle. -/
def bst_delete_iter' : Option BTree → Int → Option (BTree × List Nat)
  | none, _ => none
  | some t, key => some (BstIter.bst_delete t key)

/-- Iterative `bst_dispose` on a possibly-`NULL` handle. -/
def bst_dispose_iter' : Option BTree → Option (List Nat)
  | none => none
  | some t => some (BstIter.bst_dispose t)

/-! ## Specification-side helper functions

These follow the words of the specification ("the rightmost node of the
target's left subtree", "the in-order predecessor") and are related to the
source functions by the lemmas below. -/

/-- Key of the rightmost node (follow `right` children to the end). -/
def rightmostKey : BTree → Int
  | .nil => 0
  | .node _ k _ _ .nil => k
  | .node _ _ _ _ (.node a2 k2 v2 l2 r2) => rightmostKey (.node a2 k2 v2 l2 r2)

/-- Value of the rightmost node. -/
def rightmostVal : BTree → Int
  | .nil => 0
  | .node _ _ v _ .nil => v
  | .node _ _ _ _ (.node a2 k2 v2 l2 r2) => rightmostVal (.node a2 k2 v2 l2 r2)

/-- Address of the rightmost node. -/
def rightmostAddr : BTree → Nat
  | .nil => 0
  | .node a _ _ _ .nil => a
  | .node _ _ _ _ (.node a2 k2 v2 l2 r2) => rightmostAddr (.node a2 k2 v2 l2 r2)

/-- The tree with its rightmost node removed (the node's left child takes its
place). -/
def removeRightmost : BTree → BTree
  | .nil => .nil
  | .node _ _ _ l .nil => l
  | .node a k v l (.node a2 k2 v2 l2 r2) =>
      .node a k v l (removeRightmost (.node a2 k2 v2 l2 r2))

/-! Proof-side descriptions of the iterative loops' stack states: the left
spine a leftmost descent pushes, what it emits, the output the rest of a run
produces from a stack, loop measures (for fuel sufficiency), and bounds on the
stack lengths a run reaches (for the MAXSTACK analysis). -/

/-- The stack contents `bst_leftmost_preorder`/`_inorder` push for a tree:
the nodes of its left spine, deepest first. -/
def preSpine : BTree → List BTree
  | .nil => []
  | .node a k v l r => preSpine l ++ [.node a k v l r]

/-- What `bst_leftmost_preorder` prints for a tree: the pairs of its left
spine, root first. -/
def preEmit : BTree → List (Int × Int)
  | .nil => []
  | .node _ k v l _ => (k, v) :: preEmit l

/-- What the remaining preorder loop prints from a given stack: for each
stacked node, the preorder traversal of its right subtree. -/
def preRem (st : List BTree) : List (Int × Int) :=
  (st.map (fun n => BstRec.bst_preorder n.right)).flatten

/-- What the remaining inorder loop prints from a given stack: each stacked
node, followed by the inorder traversal of its right subtree. -/
def inRem (st : List BTree) : List (Int × Int) :=
  (st.map (fun n => (n.keyOf, n.valOf) :: BstRec.bst_inorder n.right)).flatten

/-- The stack contents `bst_leftmost_postorder` pushes: the left-spine nodes
flagged `true`, deepest first. -/
def postSpine : BTree → List (BTree × Bool)
  | .nil => []
  | .node a k v l r => postSpine l ++ [(.node a k v l r, true)]

/-- What the remaining postorder loop prints from a given stack. -/
def postRem (st : List (BTree × Bool)) : List (Int × Int) :=
  (st.map (fun p =>
    if p.2 then BstRec.bst_postorder p.1.right ++ [(p.1.keyOf, p.1.valOf)]
    else [(p.1.keyOf, p.1.valOf)])).flatten

/-- Iterations the preorder/inorder loop still performs from a stack. -/
def preMeasure (st : List BTree) : Nat :=
  (st.map (fun n => 1 + n.right.size)).sum

/-- Iterations the postorder loop still performs from a stack. -/
def postMeasure (st : List (BTree × Bool)) : Nat :=
  (st.map (fun p => if p.2 then 2 + 2 * p.1.right.size else 1)).sum

/-- Iterations the dispose loop still performs. -/
def disposeMeasure (t : BTree) (st : List BTree) : Nat :=
  2 * t.size + 1 + (st.map (fun s => 2 * s.size + 1)).sum

/-- Upper bound on the stack lengths the rest of a preorder/inorder run
reaches from a stack. -/
def pathBound : List BTree → Nat
  | [] => 0
  | t :: st => max (t.right.depth + st.length) (pathBound st)

/-- The exact maximum stack length the rest of a postorder run reaches. -/
def postBound : List (BTree × Bool) → Nat
  | [] => 0
  | (t, true) :: st => max (t.right.depth + 1 + st.length) (postBound st)
  | (_, false) :: st => postBound st

/-- Upper bound on the stack lengths the rest of a dispose run reaches. -/
def dispBound : List BTree → Nat
  | [] => 0
  | s :: st => max (s.depth + st.length) (dispBound st)

/-- `MAXSTACK` of `src/btree/iter/stack.h`: the capacity of the fixed-size
stack arrays. -/
def MAXSTACK : Nat := 30

/-- The largest stack length any push of the iterative `bst_preorder` run
produces (the push sites are inside `bst_leftmost_preorder`; lengths are
measured after the leftmost descent completes, which dominates every
intermediate length since the descent only pushes). -/
def preLoopMax : Nat → List BTree → Nat
  | 0, _ => 0
  | _ + 1, [] => 0
  | fuel + 1, t :: st =>
      let st' := (BstIter.bst_leftmost_preorder t.right st).1
      max st'.length (preLoopMax fuel st')

/-- Maximum stack occupancy of the iterative `bst_preorder` on a tree. -/
def bst_preorder_maxOcc (t : BTree) : Nat :=
  let res := BstIter.bst_leftmost_preorder t []
  max res.1.length (preLoopMax t.size res.1)

/-- The largest stack length any push of the iterative `bst_inorder` run
produces. -/
def inLoopMax : Nat → List BTree → Nat
  | 0, _ => 0
  | _ + 1, [] => 0
  | fuel + 1, t :: st =>
      let st' := BstIter.bst_leftmost_inorder t.right st
      max st'.length (inLoopMax fuel st')

/-- Maximum stack occupancy of the iterative `bst_inorder` on a tree. -/
def bst_inorder_maxOcc (t : BTree) : Nat :=
  let st := BstIter.bst_leftmost_inorder t []
  max st.length (inLoopMax t.size st)

/-- The largest stack length any push of the iterative `bst_postorder` run
produces (node stack; the boolean stack always has the same length). -/
def postLoopMax : Nat → List (BTree × Bool) → Nat
  | 0, _ => 0
  | _ + 1, [] => 0
  | fuel + 1, (t, b) :: st =>
      if b then
        let st' := BstIter.bst_leftmost_postorder t.right ((t, false) :: st)
        max st'.length (postLoopMax fuel st')
      else postLoopMax fuel st

/-- Maximum stack occupancy of the iterative `bst_postorder` on a tree. -/
def bst_postorder_maxOcc (t : BTree) : Nat :=
  let st := BstIter.bst_leftmost_postorder t []
  max st.length (postLoopMax (2 * t.size) st)

/-- The largest stack length any push of the iterative `bst_dispose` run
produces (pushes happen only when a right child exists). -/
def disposeLoopMax : Nat → BTree → List BTree → Nat
  | 0, _, _ => 0
  | _ + 1, .nil, [] => 0
  | fuel + 1, .nil, s :: st => disposeLoopMax fuel s st
  | fuel + 1, .node _ _ _ l r, st =>
      if r = .nil then disposeLoopMax fuel l st
      else max (r :: st).length (disposeLoopMax fuel l (r :: st))

/-- Maximum stack occupancy of the iterative `bst_dispose` on a tree. -/
def bst_dispose_maxOcc (t : BTree) : Nat :=
  disposeLoopMax (2 * t.size + 1) t []

/-- The tree states reachable through the ordered map's interface: start from
an initialised (empty) handle and apply any sequence of inserts and deletes
(recursive variant; the iterative one is proved equal on these states). -/
inductive bst_reachable : BTree → Prop where
  | init : bst_reachable .nil
  | ins (a : Nat) (key value : Int) {t : BTree} :
      bst_reachable t → bst_reachable (BstRec.bst_insert a t key value)
  | del (key : Int) {t : BTree} :
      bst_reachable t → bst_reachable (BstRec.bst_delete t key).1

/-! ## Concrete sample states -/

/-- The scenario tree: insert `'b'→2, 'a'→1, 'd'→4, 'c'→3` (keys are the
character ordinals `98, 97, 100, 99`) into an empty tree; `malloc` hands out
addresses `0, 1, 2, 3` in insertion order. -/
def sampleTree : BTree :=
  BstRec.bst_insert 3
    (BstRec.bst_insert 2
      (BstRec.bst_insert 1
        (BstRec.bst_insert 0 .nil 98 2) 97 1) 100 4) 99 3

/-- A caller-owned key string `"x"` (the byte `120`) at buffer address `0`. -/
def keyX : CStr := ⟨0, [120]⟩

/-- A second, content-equal copy of `"x"` at buffer address `5`. -/
def keyX' : CStr := ⟨5, [120]⟩

/-- A freshly initialised table; the allocator will hand out addresses from
`1`. -/
def htEmpty : HtState := ⟨ht_init, 1⟩

/-- The table after `ht_insert(&table, "x", 1.0)`: one entry (allocated at
address `1`) whose `strdup`'d key copy sits at address `2`. -/
def htOne : HtState := ht_insert htEmpty keyX 1

/-- The table after a further `ht_insert(&table, "x", 2.0)`. -/
def htTwo : HtState := ht_insert htOne keyX 2

/-- The stored key copy of `htOne`'s single entry, as a `char *` value (the
only pointer that compares equal to the entry's key field). -/
def storedKeyX : CStr := ⟨2, [120]⟩

/-! ## Theorems -/

/-- The nested `bst_delete(tree, rootPrt->key)` issued by the recursive
`bst_replace_by_rightmost` at the rightmost node: the key matches at the root
and there is no right child, so the call reduces to
`*tree = rootPrt->left; free(rootPrt)` — the branch inlined in the
definition of `bst_replace_by_rightmost`. -/
theorem BstRec.bst_delete_at_rightmost (a : Nat) (k v : Int) (l : BTree) :
    BstRec.bst_delete (.node a k v l .nil) k = (l, [a]) := by
  cases l <;> simp [BstRec.bst_delete]

/-- The recursive `bst_replace_by_rightmost` copies exactly the rightmost
node's key and value, removes exactly that node, and frees exactly its
address. -/
theorem rm_spec : ∀ (t : BTree), t ≠ .nil →
    BstRec.bst_replace_by_rightmost t =
      ⟨rightmostKey t, rightmostVal t, removeRightmost t, [rightmostAddr t]⟩ := by
  intro t
  induction t with
  | nil => intro h; exact absurd rfl h
  | node a k v l r ihl ihr =>
      intro _
      cases r with
      | nil => rfl
      | node a2 k2 v2 l2 r2 =>
          have hr := ihr (by simp)
          simp [BstRec.bst_replace_by_rightmost, rightmostKey, rightmostVal,
            removeRightmost, rightmostAddr, hr]

/-- The rightmost node's address is an address of the tree. -/
theorem rightmostAddr_mem : ∀ (t : BTree), t ≠ .nil → rightmostAddr t ∈ t.addrs := by
  intro t
  induction t with
  | nil => intro h; exact absurd rfl h
  | node a k v l r ihl ihr =>
      intro _
      cases r with
      | nil => simp [rightmostAddr, BTree.addrs]
      | node a2 k2 v2 l2 r2 =>
          have hr := ihr (by simp)
          simp only [rightmostAddr, BTree.addrs, List.mem_cons, List.mem_append]
          exact Or.inr (Or.inr (by simpa [BTree.addrs] using hr))

/-- C1: the claim says `ht_search` and `ht_delete` compare the stored key
with the queried key by string content.  The source compares the two
`char *` pointers (`cellElement->key == key`), so after inserting `"x"` the
table holds an entry whose key content is `"x"` (the `strdup` copy at address
`2`), yet searching for `"x"` — through the very pointer used for the insert,
or any other content-equal string — returns `NULL`, and deleting unlinks
nothing and frees nothing. -/
theorem claim_C1 :
    (∃ it ∈ htOne.table (hashIdx keyX.content), it.key.content = keyX.content)
    ∧ ht_search htOne.table keyX = none
    ∧ ht_search htOne.table keyX' = none
    ∧ (ht_delete htOne keyX').1.table (hashIdx keyX.content)
        = htOne.table (hashIdx keyX.content)
    ∧ (ht_delete htOne keyX').2 = [] := by
  decide

/-- C2: the claim says `insert(k, v)` immediately followed by `get(k)` /
`search(k)` yields `v` for the hash map.  On the source it does not: after
`ht_insert(&table, "x", 1.0)` into an empty table, `ht_get(&table, "x")` with
the same key string returns `NULL` (the stored key is a `strdup` copy at a
different address, and comparison is by pointer). -/
theorem claim_C2 :
    ht_get (ht_insert htEmpty keyX 1) keyX = none
    ∧ ht_search (ht_insert htEmpty keyX 1).table keyX = none := by
  decide

/-- C3: the claim says a key appears in at most one entry and that the
scenario `insert "x"→1.0; insert "x"→2.0` leaves exactly one entry with
`get("x") = 2.0`.  On the source the second insert fails to find the first
entry (pointer comparison), so the table ends with two entries whose key
content is `"x"` and `ht_get(&table, "x")` returns `NULL`. -/
theorem claim_C3 :
    ((ht_entries htTwo.table).filter
        (fun it => decide (it.key.content = keyX.content))).length = 2
    ∧ ht_get htTwo keyX = none := by
  decide

/-- C7 (counterexample): `get_hash` does not return
`(1 + sum of ordinals) mod HT_SIZE`, nor an index in `[0, HT_SIZE - 1]`, for
every key string: the one-character key with byte `200` is read through
signed `char` as `-56`, and C's truncating `%` gives `get_hash = -55`, while
`(1 + 200) mod 101 = 100`. -/
theorem claim_C7_cex :
    get_hash [200] = -55
    ∧ get_hash [200] < 0
    ∧ (1 + ((200 : Nat) : Int)) % 101 = 100
    ∧ get_hash [200] ≠ (1 + ((200 : Nat) : Int)) % 101 := by
  decide

/-- `wrap32` is the identity on the 32-bit `int` range: an addition whose
result fits does not wrap. -/
theorem wrap32_eq_self (x : Int) (h1 : -2 ^ 31 ≤ x) (h2 : x ≤ 2 ^ 31 - 1) :
    wrap32 x = x := by
  unfold wrap32
  rw [Int.emod_eq_of_lt (by omega) (by omega)]
  omega

/-- On all-ASCII keys whose total stays below `2^31`, the accumulator loop
never wraps: every partial sum is nonnegative and below the final total. -/
theorem hashAcc_no_wrap : ∀ (key : List Nat) (r : Int), (∀ b ∈ key, b ≤ 127) →
    0 ≤ r → r + (key.sum : Int) ≤ 2 ^ 31 - 1 →
    hashAcc key r = r + (key.sum : Int) := by
  intro key
  induction key with
  | nil => intro r _ _ _; simp [hashAcc]
  | cons b rest ih =>
      intro r h hr hs
      have hb : b < 128 := by
        have := h b (by simp)
        omega
      have hrest : (0 : Int) ≤ (rest.sum : Int) := by positivity
      have hsum : ((b :: rest).sum : Int) = (b : Int) + (rest.sum : Int) := by
        push_cast [List.sum_cons]
        ring
      rw [hsum] at hs
      have hw : wrap32 (r + signedChar b) = r + (b : Int) := by
        rw [show signedChar b = (b : Int) by simp [signedChar, hb]]
        exact wrap32_eq_self _ (by omega) (by omega)
      rw [hashAcc, hw, ih (r + (b : Int)) (fun x hx => h x (by simp [hx]))
        (by omega) (by omega), hsum]
      ring

/-- C7 (amended): for every key whose characters all have ordinal at most
`127` (so that signed `char` and byte ordinal agree) and whose characters are
genuine string bytes (nonzero) with `1 + their sum` within the 32-bit `int`
range (so the `int` accumulator and the `int` conversion of `strlen` do not
overflow), `get_hash` returns `(1 + the sum of the ordinals) mod 101`, a
valid bucket index in `[0, HT_SIZE - 1]`; the bucket index is fully
determined by the key's content. -/
theorem claim_C7 (key : List Nat) (h : ∀ b ∈ key, 1 ≤ b ∧ b ≤ 127)
    (hs : 1 + (key.sum : Int) ≤ 2 ^ 31 - 1) :
    get_hash key = (1 + (key.sum : Int)) % 101
    ∧ 0 ≤ get_hash key ∧ get_hash key < 101 := by
  have hpos : (0 : Int) ≤ 1 + (key.sum : Int) := by positivity
  have hacc : hashAcc key 1 = 1 + (key.sum : Int) :=
    hashAcc_no_wrap key 1 (fun b hb => (h b hb).2) (by omega) (by omega)
  have heq : get_hash key = (1 + (key.sum : Int)) % 101 := by
    unfold get_hash HT_SIZE
    rw [hacc]
    exact Int.tmod_eq_emod hpos (by norm_num)
  refine ⟨heq, ?_, ?_⟩
  · rw [heq]
    exact Int.emod_nonneg _ (by norm_num)
  · rw [heq]
    exact Int.emod_lt_of_pos _ (by norm_num)

/-- Witness for C7 at the key `"x"` (byte `120`): the hypotheses hold and
`get_hash` is `121 mod 101 = 20`. -/
theorem claim_C7_witness :
    get_hash [120] = (1 + (([120] : List Nat).sum : Int)) % 101
    ∧ 0 ≤ get_hash [120] ∧ get_hash [120] < 101 :=
  claim_C7 [120] (by decide) (by decide)

/-- C8: the claim says `ht_delete` on a present key unlinks the entry and
frees both its allocations (the `strdup`'d key copy and the entry), and does
nothing on an absent key.  On the source: deleting with a content-equal key
string does nothing at all (pointer comparison, first two conjuncts); and
even when the caller passes the stored key pointer itself so that the
comparison matches, only the entry's allocation (address `1`) is freed — the
key copy's allocation (address `2`) is leaked. -/
theorem claim_C8 :
    ((ht_delete htOne keyX').1.table (hashIdx keyX.content)).length = 1
    ∧ (ht_delete htOne keyX').2 = []
    ∧ (ht_delete htOne storedKeyX).1.table (hashIdx keyX.content) = []
    ∧ (ht_delete htOne storedKeyX).2 = [1]
    ∧ (htOne.table (hashIdx keyX.content)).map (fun it => it.key.addr) = [2]
    ∧ 2 ∉ (ht_delete htOne storedKeyX).2 := by
  decide

/-- C4: deleting the key of a node with two children overwrites the node's
key and value with those of its in-order predecessor — the rightmost node of
its left subtree — removes that predecessor from the left subtree, frees the
predecessor's allocation, and never frees the target's own allocation (the
hypothesis `a ∉ l.addrs` is address distinctness of the live heap).
Concretely, on the scenario tree built by inserting `'b'→2, 'a'→1, 'd'→4,
'c'→3`, `delete('b')` (key `98`) rewrites the root (address `0`) to `a,1`
(key `97`), frees the original `'a'` node (address `1`), and the resulting
in-order traversal is `[a,1],[c,3],[d,4]`; the iterative variant produces the
same result. -/
theorem claim_C4 :
    (∀ (a : Nat) (k v : Int) (l r : BTree), l ≠ .nil → r ≠ .nil → a ∉ l.addrs →
        BstRec.bst_delete (.node a k v l r) k
          = (.node a (rightmostKey l) (rightmostVal l) (removeRightmost l) r,
              [rightmostAddr l])
        ∧ rightmostAddr l ∈ l.addrs
        ∧ a ∉ (BstRec.bst_delete (.node a k v l r) k).2)
    ∧ BstRec.bst_delete sampleTree 98
        = (.node 0 97 1 .nil (.node 2 100 4 (.node 3 99 3 .nil .nil) .nil), [1])
    ∧ BstRec.bst_inorder (BstRec.bst_delete sampleTree 98).1
        = [(97, 1), (99, 3), (100, 4)]
    ∧ BstIter.bst_delete sampleTree 98 = BstRec.bst_delete sampleTree 98 := by
  refine ⟨?_, by decide, by decide, by decide⟩
  intro a k v l r hl hr ha
  have hmem := rightmostAddr_mem l hl
  have hdel : BstRec.bst_delete (.node a k v l r) k
      = (.node a (rightmostKey l) (rightmostVal l) (removeRightmost l) r,
          [rightmostAddr l]) := by
    cases l with
    | nil => exact absurd rfl hl
    | node a2 k2 v2 l2 r2 =>
        cases r with
        | nil => exact absurd rfl hr
        | node a3 k3 v3 l3 r3 =>
            simp [BstRec.bst_delete, rm_spec (.node a2 k2 v2 l2 r2) (by simp)]
  refine ⟨hdel, hmem, ?_⟩
  rw [hdel]
  simp only [List.mem_singleton]
  intro hcontra
  exact ha (hcontra ▸ hmem)

/-- Witness for C4: the general two-children statement applied at the
scenario tree's root (`a = 0`, key `98`, left subtree the `'a'` node at
address `1`, right subtree the `'d'/'c'` nodes). -/
theorem claim_C4_witness :
    BstRec.bst_delete
        (.node 0 98 2 (.node 1 97 1 .nil .nil)
          (.node 2 100 4 (.node 3 99 3 .nil .nil) .nil)) 98
      = (.node 0 (rightmostKey (.node 1 97 1 .nil .nil))
          (rightmostVal (.node 1 97 1 .nil .nil))
          (removeRightmost (.node 1 97 1 .nil .nil))
          (.node 2 100 4 (.node 3 99 3 .nil .nil) .nil),
          [rightmostAddr (.node 1 97 1 .nil .nil)])
      ∧ rightmostAddr (.node 1 97 1 .nil .nil) ∈ (BTree.node 1 97 1 .nil .nil).addrs
      ∧ 0 ∉ (BstRec.bst_delete
          (.node 0 98 2 (.node 1 97 1 .nil .nil)
            (.node 2 100 4 (.node 3 99 3 .nil .nil) .nil)) 98).2 :=
  claim_C4.1 0 98 2 (.node 1 97 1 .nil .nil)
    (.node 2 100 4 (.node 3 99 3 .nil .nil) .nil)
    (by decide) (by decide) (by decide)

/-- C9: every operation of both containers, called on an absent (`NULL`)
table/tree handle, is a no-op that returns an absent result: the `NULL`
checks at the top of each source function return immediately. -/
theorem claim_C9 :
    ∀ (k : CStr) (v : Rat) (a : Nat) (key value : Int),
      ht_init' none = none
      ∧ ht_search' none k = none
      ∧ ht_insert' none k v = none
      ∧ ht_get' none k = none
      ∧ ht_delete' none k = none
      ∧ ht_delete_all' none = none
      ∧ bst_init' none = none
      ∧ bst_insert_rec' a none key value = none
      ∧ bst_delete_rec' none key = none
      ∧ bst_dispose_rec' none = none
      ∧ bst_insert_iter' a none key value = none
      ∧ bst_delete_iter' none key = none
      ∧ bst_dispose_iter' none = none
      ∧ BstRec.bst_search .nil key = none
      ∧ BstIter.bst_search .nil key = none := by
  intro k v a key value
  exact ⟨rfl, rfl, rfl, rfl, rfl, rfl, rfl, rfl, rfl, rfl, rfl, rfl, rfl, rfl, rfl⟩

/-! ### Equivalence of the iterative and recursive variants (C5) -/

/-- The two searches test the comparisons in a different order (the recursive
one checks equality first); by trichotomy they take the same branch. -/
theorem search_iter_eq_rec : ∀ (t : BTree) (key : Int),
    BstIter.bst_search t key = BstRec.bst_search t key := by
  intro t key
  induction t with
  | nil => rfl
  | node a k v l r ihl ihr =>
      rcases lt_trichotomy key k with h | h | h
      · have hne : ¬ k = key := by omega
        simp [BstIter.bst_search, BstRec.bst_search, h, hne, ihl]
      · simp [BstIter.bst_search, BstRec.bst_search, h]
      · have hne : ¬ k = key := by omega
        have hnl : ¬ key < k := by omega
        simp [BstIter.bst_search, BstRec.bst_search, h, hne, hnl, ihr]

/-- The two inserts descend by the same comparisons and build the same
tree. -/
theorem insert_iter_eq_rec : ∀ (a : Nat) (t : BTree) (key value : Int),
    BstIter.bst_insert a t key value = BstRec.bst_insert a t key value := by
  intro a t
  induction t with
  | nil => intro key value; rfl
  | node a0 k v l r ihl ihr =>
      intro key value
      simp only [BstIter.bst_insert, BstRec.bst_insert]
      split_ifs <;> simp [ihl, ihr]

/-- A key-predicate that holds everywhere still holds everywhere after a
monotone weakening. -/
theorem allKeys_mono {p q : Int → Bool} (hpq : ∀ x, p x = true → q x = true) :
    ∀ t : BTree, allKeys p t = true → allKeys q t = true := by
  intro t
  induction t with
  | nil => intro; rfl
  | node a k v l r ihl ihr =>
      intro h
      simp only [allKeys, Bool.and_eq_true] at h ⊢
      exact ⟨⟨hpq k h.1.1, ihl h.1.2⟩, ihr h.2⟩

/-- A key-predicate that holds everywhere holds of the rightmost key. -/
theorem allKeys_rightmostKey {p : Int → Bool} : ∀ t : BTree,
    allKeys p t = true → t ≠ .nil → p (rightmostKey t) = true := by
  intro t
  induction t with
  | nil => intro _ h; exact absurd rfl h
  | node a k v l r ihl ihr =>
      intro h _
      simp only [allKeys, Bool.and_eq_true] at h
      cases r with
      | nil => exact h.1.1
      | node a2 k2 v2 l2 r2 =>
          simpa [rightmostKey] using ihr h.2 (by simp)

/-- A key-predicate that holds everywhere still does after removing the
rightmost node. -/
theorem allKeys_removeRightmost {p : Int → Bool} : ∀ t : BTree,
    allKeys p t = true → allKeys p (removeRightmost t) = true := by
  intro t
  induction t with
  | nil => intro; rfl
  | node a k v l r ihl ihr =>
      intro h
      simp only [allKeys, Bool.and_eq_true] at h
      cases r with
      | nil => simpa [removeRightmost] using h.1.2
      | node a2 k2 v2 l2 r2 =>
          simp only [removeRightmost, allKeys, Bool.and_eq_true]
          exact ⟨⟨h.1.1, h.1.2⟩, ihr h.2⟩

/-- Every key of a BST with its rightmost node removed is strictly below the
removed (greatest) key. -/
theorem removeRightmost_lt : ∀ t : BTree, isBST t = true → t ≠ .nil →
    allKeys (fun x => decide (x < rightmostKey t)) (removeRightmost t) = true := by
  intro t
  induction t with
  | nil => intro _ h; exact absurd rfl h
  | node a k v l r ihl ihr =>
      intro h _
      simp only [isBST, Bool.and_eq_true] at h
      obtain ⟨⟨⟨hal, har⟩, hbl⟩, hbr⟩ := h
      cases r with
      | nil => simpa [removeRightmost, rightmostKey] using hal
      | node a2 k2 v2 l2 r2 =>
          have hkr : k < rightmostKey (.node a2 k2 v2 l2 r2) := by
            have := allKeys_rightmostKey (.node a2 k2 v2 l2 r2) har (by simp)
            simpa using this
          simp only [removeRightmost, rightmostKey, allKeys, Bool.and_eq_true]
          refine ⟨⟨by simpa using hkr, ?_⟩, ihr hbr (by simp)⟩
          refine allKeys_mono ?_ l hal
          intro x hx
          simp only [decide_eq_true_eq] at hx ⊢
          omega

/-- Removing the rightmost node preserves the BST invariant. -/
theorem isBST_removeRightmost : ∀ t : BTree, isBST t = true →
    isBST (removeRightmost t) = true := by
  intro t
  induction t with
  | nil => intro; rfl
  | node a k v l r ihl ihr =>
      intro h
      simp only [isBST, Bool.and_eq_true] at h
      obtain ⟨⟨⟨hal, har⟩, hbl⟩, hbr⟩ := h
      cases r with
      | nil => simpa [removeRightmost] using hbl
      | node a2 k2 v2 l2 r2 =>
          simp only [removeRightmost, isBST, Bool.and_eq_true]
          exact ⟨⟨⟨hal, allKeys_removeRightmost _ har⟩, hbl⟩, ihr hbr⟩

/-- The `while (rootPtr->right != NULL)` walk of the iterative
`bst_replace_by_rightmost` reads exactly the rightmost node. -/
theorem rightmostSearch_spec : ∀ t : BTree, t ≠ .nil →
    BstIter.rightmostSearch t = (rightmostKey t, rightmostVal t) := by
  intro t
  induction t with
  | nil => intro h; exact absurd rfl h
  | node a k v l r ihl ihr =>
      intro _
      cases r with
      | nil => rfl
      | node a2 k2 v2 l2 r2 =>
          simpa [BstIter.rightmostSearch, rightmostKey, rightmostVal] using
            ihr (by simp)

/-- In a BST, the iterative search finds the rightmost (greatest) key. -/
theorem search_rightmost : ∀ t : BTree, isBST t = true → t ≠ .nil →
    BstIter.bst_search t (rightmostKey t) = some (rightmostVal t) := by
  intro t
  induction t with
  | nil => intro _ h; exact absurd rfl h
  | node a k v l r ihl ihr =>
      intro h _
      simp only [isBST, Bool.and_eq_true] at h
      obtain ⟨⟨⟨hal, har⟩, hbl⟩, hbr⟩ := h
      cases r with
      | nil => simp [rightmostKey, rightmostVal, BstIter.bst_search]
      | node a2 k2 v2 l2 r2 =>
          have hkr : k < rightmostKey (.node a2 k2 v2 l2 r2) := by
            have := allKeys_rightmostKey (.node a2 k2 v2 l2 r2) har (by simp)
            simpa using this
          have hn : ¬ rightmostKey (.node a2 k2 v2 l2 r2) < k := by omega
          have hs := ihr hbr (by simp)
          simp only [rightmostKey, rightmostVal]
          rw [BstIter.bst_search, if_neg hn, if_pos hkr]
          exact hs

/-- In a BST, the iterative delete body called with the rightmost key removes
exactly the rightmost node and frees exactly its address. -/
theorem deleteGo_rightmost : ∀ t : BTree, isBST t = true → t ≠ .nil →
    BstIter.deleteGo t (rightmostKey t) = (removeRightmost t, [rightmostAddr t]) := by
  intro t
  induction t with
  | nil => intro _ h; exact absurd rfl h
  | node a k v l r ihl ihr =>
      intro h _
      simp only [isBST, Bool.and_eq_true] at h
      obtain ⟨⟨⟨hal, har⟩, hbl⟩, hbr⟩ := h
      cases r with
      | nil =>
          cases l with
          | nil =>
              simp [BstIter.deleteGo, rightmostKey, removeRightmost, rightmostAddr]
          | node a2 k2 v2 l2 r2 =>
              simp [BstIter.deleteGo, rightmostKey, removeRightmost, rightmostAddr]
      | node a2 k2 v2 l2 r2 =>
          have hkr : k < rightmostKey (.node a2 k2 v2 l2 r2) := by
            have := allKeys_rightmostKey (.node a2 k2 v2 l2 r2) har (by simp)
            simpa using this
          have hn : ¬ rightmostKey (.node a2 k2 v2 l2 r2) < k := by omega
          have hrec := ihr hbr (by simp)
          simp only [rightmostKey, removeRightmost, rightmostAddr]
          rw [BstIter.deleteGo.eq_def]
          simp only [if_neg hn, if_pos hkr]
          rw [hrec]

/-- Deleting a key the recursive search does not find leaves the tree
unchanged and frees nothing. -/
theorem delete_absent_rec : ∀ (t : BTree) (key : Int),
    BstRec.bst_search t key = none → BstRec.bst_delete t key = (t, []) := by
  intro t key
  induction t with
  | nil => intro _; rfl
  | node a k v l r ihl ihr =>
      intro h
      rcases lt_trichotomy key k with hc | hc | hc
      · have hne : ¬ k = key := by omega
        have hl : BstRec.bst_search l key = none := by
          rw [BstRec.bst_search, if_neg hne, if_pos hc] at h
          exact h
        rw [BstRec.bst_delete.eq_def]
        simp only [if_pos hc]
        rw [ihl hl]
      · exfalso
        rw [BstRec.bst_search, if_pos (by omega : k = key)] at h
        exact Option.noConfusion h
      · have hne : ¬ k = key := by omega
        have hnl : ¬ key < k := by omega
        have hr : BstRec.bst_search r key = none := by
          rw [BstRec.bst_search, if_neg hne, if_neg hnl] at h
          exact h
        rw [BstRec.bst_delete.eq_def]
        simp only [if_neg hnl, if_pos hc]
        rw [ihr hr]

/-- On a BST the iterative delete body agrees with the recursive delete. -/
theorem deleteGo_eq_rec : ∀ (t : BTree) (key : Int), isBST t = true →
    BstIter.deleteGo t key = BstRec.bst_delete t key := by
  intro t key
  induction t with
  | nil => intro _; rfl
  | node a k v l r ihl ihr =>
      intro h
      simp only [isBST, Bool.and_eq_true] at h
      obtain ⟨⟨⟨hal, har⟩, hbl⟩, hbr⟩ := h
      rcases lt_trichotomy key k with hc | hc | hc
      · rw [BstIter.deleteGo.eq_def, BstRec.bst_delete.eq_def]
        simp only [if_pos hc]
        rw [ihl hbl]
      · subst hc
        have hi : ¬ key < key := by omega
        rw [BstIter.deleteGo.eq_def, BstRec.bst_delete.eq_def]
        simp only [if_neg hi]
        cases l with
        | nil => cases r <;> rfl
        | node a2 k2 v2 l2 r2 =>
            cases r with
            | nil => rfl
            | node a3 k3 v3 l3 r3 =>
                have hrs := rightmostSearch_spec (.node a2 k2 v2 l2 r2) (by simp)
                have hfind := search_rightmost (.node a2 k2 v2 l2 r2) hbl (by simp)
                have hgo := deleteGo_rightmost (.node a2 k2 v2 l2 r2) hbl (by simp)
                have hrm := rm_spec (.node a2 k2 v2 l2 r2) (by simp)
                simp [hrs, hfind, hgo, hrm]
      · have hnl : ¬ key < k := by omega
        rw [BstIter.deleteGo.eq_def, BstRec.bst_delete.eq_def]
        simp only [if_neg hnl, if_pos hc]
        rw [ihr hbr]

/-- On a BST the iterative and recursive deletes agree (same tree, same
frees). -/
theorem delete_iter_eq_rec : ∀ (t : BTree) (key : Int), isBST t = true →
    BstIter.bst_delete t key = BstRec.bst_delete t key := by
  intro t key h
  unfold BstIter.bst_delete
  by_cases hs : (BstIter.bst_search t key).isNone
  · rw [if_pos hs]
    have hnone : BstRec.bst_search t key = none := by
      rw [← search_iter_eq_rec]
      simpa [Option.isNone_iff_eq_none] using hs
    exact (delete_absent_rec t key hnone).symm
  · rw [if_neg hs]
    exact deleteGo_eq_rec t key h

/-- The dispose loop frees the current subtree in preorder, then the stacked
subtrees. -/
theorem disposeLoop_eq : ∀ (fuel : Nat) (t : BTree) (st : List BTree),
    disposeMeasure t st ≤ fuel →
    BstIter.disposeLoop fuel t st = t.addrs ++ (st.map BTree.addrs).flatten := by
  intro fuel
  induction fuel with
  | zero =>
      intro t st h
      exfalso
      simp [disposeMeasure] at h
  | succ fuel ih =>
      intro t st h
      cases t with
      | nil =>
          cases st with
          | nil => rfl
          | cons s st' =>
              rw [BstIter.disposeLoop]
              rw [ih s st' (by simp [disposeMeasure] at h ⊢; omega)]
              simp [BTree.addrs]
      | node a k v l r =>
          by_cases hr : r = BTree.nil
          · subst hr
            rw [BstIter.disposeLoop, if_pos rfl]
            rw [ih l st (by simp [disposeMeasure, BTree.size] at h ⊢; omega)]
            simp [BTree.addrs]
          · rw [BstIter.disposeLoop, if_neg hr]
            rw [ih l (r :: st) (by simp [disposeMeasure, BTree.size] at h ⊢; omega)]
            simp [BTree.addrs]

/-- The iterative dispose frees exactly the tree's addresses (in preorder). -/
theorem dispose_iter_addrs (t : BTree) : BstIter.bst_dispose t = t.addrs := by
  unfold BstIter.bst_dispose
  rw [disposeLoop_eq (2 * t.size + 1) t [] (by simp [disposeMeasure])]
  simp

/-- The recursive dispose frees exactly the tree's addresses (in postorder:
a permutation of the preorder listing). -/
theorem dispose_rec_perm : ∀ t : BTree, (BstRec.bst_dispose t).Perm t.addrs := by
  intro t
  induction t with
  | nil => simp [BstRec.bst_dispose, BTree.addrs]
  | node a k v l r ihl ihr =>
      simp only [BstRec.bst_dispose, BTree.addrs]
      have h1 : (BstRec.bst_dispose l ++ BstRec.bst_dispose r ++ [a]).Perm
          ((l.addrs ++ r.addrs) ++ [a]) := (ihl.append ihr).append_right [a]
      have h2 : ((l.addrs ++ r.addrs) ++ [a]).Perm (a :: (l.addrs ++ r.addrs)) :=
        List.perm_append_singleton a _
      exact h1.trans h2

/-- `bst_leftmost_preorder` pushes the left spine and prints it root-first. -/
theorem leftmostPre_eq : ∀ (t : BTree) (st : List BTree),
    BstIter.bst_leftmost_preorder t st = (preSpine t ++ st, preEmit t) := by
  intro t
  induction t with
  | nil => intro st; rfl
  | node a k v l r ihl ihr =>
      intro st
      simp [BstIter.bst_leftmost_preorder, preSpine, preEmit, ihl]

/-- Decomposition of the recursive preorder along the left spine. -/
theorem pre_decomp : ∀ t : BTree,
    BstRec.bst_preorder t = preEmit t ++ preRem (preSpine t) := by
  intro t
  induction t with
  | nil => rfl
  | node a k v l r ihl ihr =>
      simp [BstRec.bst_preorder, preEmit, preSpine, preRem, BTree.right, ihl]

/-- `preRem` distributes over stack concatenation. -/
theorem preRem_append (A B : List BTree) : preRem (A ++ B) = preRem A ++ preRem B := by
  simp [preRem]

/-- `preRem` on a pushed node. -/
theorem preRem_cons (t : BTree) (st : List BTree) :
    preRem (t :: st) = BstRec.bst_preorder t.right ++ preRem st := by
  simp [preRem]

/-- The left spine's loop measure is the subtree's size. -/
theorem preMeasure_spine : ∀ t : BTree, preMeasure (preSpine t) = t.size := by
  intro t
  induction t with
  | nil => rfl
  | node a k v l r ihl ihr =>
      simp [preMeasure, preSpine, BTree.size, BTree.right] at ihl ⊢
      omega

/-- With sufficient fuel the preorder loop prints the right-subtree preorders
of the stacked nodes. -/
theorem preLoop_eq : ∀ (fuel : Nat) (st : List BTree), preMeasure st ≤ fuel →
    BstIter.preLoop fuel st = preRem st := by
  intro fuel
  induction fuel with
  | zero =>
      intro st h
      cases st with
      | nil => rfl
      | cons t st' =>
          exfalso
          simp [preMeasure] at h
  | succ fuel ih =>
      intro st h
      cases st with
      | nil => rfl
      | cons t st' =>
          have hmeas : preMeasure (preSpine t.right ++ st') ≤ fuel := by
            have h1 := preMeasure_spine t.right
            simp [preMeasure, List.map_append, List.sum_append] at h h1 ⊢
            omega
          rw [BstIter.preLoop]
          simp only [leftmostPre_eq]
          rw [ih _ hmeas, preRem_append, preRem_cons, ← List.append_assoc,
            ← pre_decomp]

/-- The iterative and recursive preorders print the same sequence. -/
theorem preorder_iter_eq_rec : ∀ t : BTree,
    BstIter.bst_preorder t = BstRec.bst_preorder t := by
  intro t
  unfold BstIter.bst_preorder
  simp only [leftmostPre_eq]
  rw [preLoop_eq t.size (preSpine t ++ []) (by simp [preMeasure_spine])]
  simp [preRem_append, ← pre_decomp]

/-- `bst_leftmost_inorder` pushes the left spine (printing nothing). -/
theorem leftmostIn_eq : ∀ (t : BTree) (st : List BTree),
    BstIter.bst_leftmost_inorder t st = preSpine t ++ st := by
  intro t
  induction t with
  | nil => intro st; rfl
  | node a k v l r ihl ihr =>
      intro st
      simp [BstIter.bst_leftmost_inorder, preSpine, ihl]

/-- Decomposition of the recursive inorder along the left spine. -/
theorem in_decomp : ∀ t : BTree, BstRec.bst_inorder t = inRem (preSpine t) := by
  intro t
  induction t with
  | nil => rfl
  | node a k v l r ihl ihr =>
      simp [BstRec.bst_inorder, preSpine, inRem, BTree.right, BTree.keyOf,
        BTree.valOf, ihl]

/-- `inRem` distributes over stack concatenation. -/
theorem inRem_append (A B : List BTree) : inRem (A ++ B) = inRem A ++ inRem B := by
  simp [inRem]

/-- `inRem` on a pushed node. -/
theorem inRem_cons (t : BTree) (st : List BTree) :
    inRem (t :: st) = (t.keyOf, t.valOf) :: BstRec.bst_inorder t.right ++ inRem st := by
  simp [inRem]

/-- With sufficient fuel the inorder loop prints each stacked node followed by
its right subtree's inorder. -/
theorem inLoop_eq : ∀ (fuel : Nat) (st : List BTree), preMeasure st ≤ fuel →
    BstIter.inLoop fuel st = inRem st := by
  intro fuel
  induction fuel with
  | zero =>
      intro st h
      cases st with
      | nil => rfl
      | cons t st' =>
          exfalso
          simp [preMeasure] at h
  | succ fuel ih =>
      intro st h
      cases st with
      | nil => rfl
      | cons t st' =>
          have hmeas : preMeasure (preSpine t.right ++ st') ≤ fuel := by
            have h1 := preMeasure_spine t.right
            simp [preMeasure, List.map_append, List.sum_append] at h h1 ⊢
            omega
          rw [BstIter.inLoop]
          simp only [leftmostIn_eq]
          rw [ih _ hmeas, inRem_append, inRem_cons, ← in_decomp]
          simp

/-- The iterative and recursive inorders print the same sequence. -/
theorem inorder_iter_eq_rec : ∀ t : BTree,
    BstIter.bst_inorder t = BstRec.bst_inorder t := by
  intro t
  unfold BstIter.bst_inorder
  simp only [leftmostIn_eq]
  rw [inLoop_eq t.size (preSpine t ++ []) (by simp [preMeasure_spine])]
  simp [inRem_append, ← in_decomp]

/-- `bst_leftmost_postorder` pushes the left spine flagged `true`. -/
theorem leftmostPost_eq : ∀ (t : BTree) (st : List (BTree × Bool)),
    BstIter.bst_leftmost_postorder t st = postSpine t ++ st := by
  intro t
  induction t with
  | nil => intro st; rfl
  | node a k v l r ihl ihr =>
      intro st
      simp [BstIter.bst_leftmost_postorder, postSpine, ihl]

/-- Decomposition of the recursive postorder along the left spine. -/
theorem post_decomp : ∀ t : BTree, BstRec.bst_postorder t = postRem (postSpine t) := by
  intro t
  induction t with
  | nil => rfl
  | node a k v l r ihl ihr =>
      simp [BstRec.bst_postorder, postSpine, postRem, BTree.right, BTree.keyOf,
        BTree.valOf, ihl]

/-- `postRem` distributes over stack concatenation. -/
theorem postRem_append (A B : List (BTree × Bool)) :
    postRem (A ++ B) = postRem A ++ postRem B := by
  simp [postRem]

/-- `postRem` on a first-visit node. -/
theorem postRem_cons_true (t : BTree) (st : List (BTree × Bool)) :
    postRem ((t, true) :: st)
      = BstRec.bst_postorder t.right ++ (t.keyOf, t.valOf) :: postRem st := by
  simp [postRem]

/-- `postRem` on a second-visit node. -/
theorem postRem_cons_false (t : BTree) (st : List (BTree × Bool)) :
    postRem ((t, false) :: st) = (t.keyOf, t.valOf) :: postRem st := by
  simp [postRem]

/-- The postorder spine's loop measure is twice the subtree's size. -/
theorem postMeasure_spine : ∀ t : BTree, postMeasure (postSpine t) = 2 * t.size := by
  intro t
  induction t with
  | nil => rfl
  | node a k v l r ihl ihr =>
      simp [postMeasure, postSpine, BTree.size, BTree.right] at ihl ⊢
      omega

/-- With sufficient fuel the postorder loop prints, for each first-visit
stacked node, its right subtree's postorder then the node itself. -/
theorem postLoop_eq : ∀ (fuel : Nat) (st : List (BTree × Bool)),
    postMeasure st ≤ fuel → BstIter.postLoop fuel st = postRem st := by
  intro fuel
  induction fuel with
  | zero =>
      intro st h
      cases st with
      | nil => rfl
      | cons p st' =>
          exfalso
          rcases p with ⟨t, b⟩
          cases b <;> simp [postMeasure] at h
  | succ fuel ih =>
      intro st h
      cases st with
      | nil => rfl
      | cons p st' =>
          rcases p with ⟨t, b⟩
          cases b with
          | true =>
              have hmeas : postMeasure (postSpine t.right ++ (t, false) :: st') ≤ fuel := by
                have h1 := postMeasure_spine t.right
                simp [postMeasure, List.map_append, List.sum_append] at h h1 ⊢
                omega
              rw [BstIter.postLoop]
              simp only [leftmostPost_eq, if_pos rfl]
              rw [ih _ hmeas, postRem_append, postRem_cons_false,
                postRem_cons_true, ← post_decomp]
              simp
          | false =>
              have hmeas : postMeasure st' ≤ fuel := by
                simp [postMeasure] at h ⊢
                omega
              rw [BstIter.postLoop]
              simp only [Bool.false_eq_true, if_false]
              rw [ih _ hmeas, postRem_cons_false]

/-- The iterative and recursive postorders print the same sequence. -/
theorem postorder_iter_eq_rec : ∀ t : BTree,
    BstIter.bst_postorder t = BstRec.bst_postorder t := by
  intro t
  unfold BstIter.bst_postorder
  simp only [leftmostPost_eq]
  rw [postLoop_eq (2 * t.size) (postSpine t ++ []) (by simp [postMeasure_spine])]
  simp [postRem_append, ← post_decomp]

/-- C5: the iterative (explicit-stack) and recursive implementations produce
identical externally observable results: the searches agree on every tree and
key, the inserts build identical trees, the deletes (on every tree satisfying
the search-order invariant, which holds for every state reachable through the
interface) produce identical trees and free identical addresses, the disposes
free exactly the same set of allocations (the free order — preorder
vs. postorder — is not observable), and the three traversals print identical
sequences on every tree. -/
theorem claim_C5 :
    (∀ (t : BTree) (key : Int), BstIter.bst_search t key = BstRec.bst_search t key)
    ∧ (∀ (a : Nat) (t : BTree) (key value : Int),
        BstIter.bst_insert a t key value = BstRec.bst_insert a t key value)
    ∧ (∀ (t : BTree) (key : Int), isBST t = true →
        BstIter.bst_delete t key = BstRec.bst_delete t key)
    ∧ (∀ t : BTree, (BstIter.bst_dispose t).Perm (BstRec.bst_dispose t))
    ∧ (∀ t : BTree, BstIter.bst_preorder t = BstRec.bst_preorder t)
    ∧ (∀ t : BTree, BstIter.bst_inorder t = BstRec.bst_inorder t)
    ∧ (∀ t : BTree, BstIter.bst_postorder t = BstRec.bst_postorder t) :=
  ⟨search_iter_eq_rec, insert_iter_eq_rec, delete_iter_eq_rec,
    fun t => (dispose_iter_addrs t ▸ (dispose_rec_perm t).symm),
    preorder_iter_eq_rec, inorder_iter_eq_rec, postorder_iter_eq_rec⟩

/-- Witness for C5: the delete-equivalence conjunct applied to the concrete
scenario tree (a BST) and the key `'d' = 100`. -/
theorem claim_C5_witness :
    BstIter.bst_delete sampleTree 100 = BstRec.bst_delete sampleTree 100 :=
  claim_C5.2.2.1 sampleTree 100 (by decide)

/-! ### The BST invariant along the interface, and sortedness (C6) -/

/-- A key-predicate holding everywhere, and of the inserted key, holds
everywhere after an insert. -/
theorem allKeys_insert {p : Int → Bool} : ∀ (a : Nat) (t : BTree) (key value : Int),
    allKeys p t = true → p key = true →
    allKeys p (BstRec.bst_insert a t key value) = true := by
  intro a t
  induction t with
  | nil => intro key value _ hk; simp [BstRec.bst_insert, allKeys, hk]
  | node a0 k v l r ihl ihr =>
      intro key value h hk
      simp only [allKeys, Bool.and_eq_true] at h
      simp only [BstRec.bst_insert]
      split_ifs with h1 h2
      · simp only [allKeys, Bool.and_eq_true]
        exact ⟨⟨h.1.1, ihl key value h.1.2 hk⟩, h.2⟩
      · simp only [allKeys, Bool.and_eq_true]
        exact ⟨⟨h.1.1, h.1.2⟩, ihr key value h.2 hk⟩
      · simp only [allKeys, Bool.and_eq_true]
        exact ⟨⟨h.1.1, h.1.2⟩, h.2⟩

/-- `bst_insert` preserves the BST invariant. -/
theorem isBST_insert : ∀ (a : Nat) (t : BTree) (key value : Int),
    isBST t = true → isBST (BstRec.bst_insert a t key value) = true := by
  intro a t
  induction t with
  | nil => intro key value _; simp [BstRec.bst_insert, isBST, allKeys]
  | node a0 k v l r ihl ihr =>
      intro key value h
      simp only [isBST, Bool.and_eq_true] at h
      obtain ⟨⟨⟨hal, har⟩, hbl⟩, hbr⟩ := h
      simp only [BstRec.bst_insert]
      split_ifs with h1 h2
      · simp only [isBST, Bool.and_eq_true]
        exact ⟨⟨⟨allKeys_insert a l key value hal (by simpa using h1), har⟩,
          ihl key value hbl⟩, hbr⟩
      · simp only [isBST, Bool.and_eq_true]
        exact ⟨⟨⟨hal, allKeys_insert a r key value har (by simpa using h2)⟩, hbl⟩,
          ihr key value hbr⟩
      · simp only [isBST, Bool.and_eq_true]
        exact ⟨⟨⟨hal, har⟩, hbl⟩, hbr⟩

/-- A key-predicate holding everywhere still holds everywhere after a
delete. -/
theorem allKeys_delete {p : Int → Bool} : ∀ (t : BTree) (key : Int),
    allKeys p t = true → allKeys p (BstRec.bst_delete t key).1 = true := by
  intro t key
  induction t with
  | nil => intro _; simp [BstRec.bst_delete, allKeys]
  | node a k v l r ihl ihr =>
      intro h
      simp only [allKeys, Bool.and_eq_true] at h
      rcases lt_trichotomy key k with hc | hc | hc
      · rw [BstRec.bst_delete.eq_def]
        simp only [if_pos hc]
        simp only [allKeys, Bool.and_eq_true]
        exact ⟨⟨h.1.1, ihl h.1.2⟩, h.2⟩
      · subst hc
        have hi : ¬ key < key := by omega
        rw [BstRec.bst_delete.eq_def]
        simp only [if_neg hi]
        cases l with
        | nil =>
            cases r with
            | nil => simp [allKeys]
            | node a3 k3 v3 l3 r3 =>
                simpa [allKeys, Bool.and_eq_true] using h.2
        | node a2 k2 v2 l2 r2 =>
            cases r with
            | nil => simpa [allKeys, Bool.and_eq_true] using h.1.2
            | node a3 k3 v3 l3 r3 =>
                have hrm := rm_spec (.node a2 k2 v2 l2 r2) (by simp)
                simp only [hrm]
                simp only [allKeys, Bool.and_eq_true]
                refine ⟨⟨?_, allKeys_removeRightmost _ h.1.2⟩, ?_⟩
                · exact allKeys_rightmostKey _ h.1.2 (by simp)
                · simpa [allKeys, Bool.and_eq_true] using h.2
      · have hnl : ¬ key < k := by omega
        rw [BstRec.bst_delete.eq_def]
        simp only [if_neg hnl, if_pos hc]
        simp only [allKeys, Bool.and_eq_true]
        exact ⟨⟨h.1.1, h.1.2⟩, ihr h.2⟩

/-- `bst_delete` preserves the BST invariant. -/
theorem isBST_delete : ∀ (t : BTree) (key : Int),
    isBST t = true → isBST (BstRec.bst_delete t key).1 = true := by
  intro t key
  induction t with
  | nil => intro _; simp [BstRec.bst_delete, isBST]
  | node a k v l r ihl ihr =>
      intro h
      simp only [isBST, Bool.and_eq_true] at h
      obtain ⟨⟨⟨hal, har⟩, hbl⟩, hbr⟩ := h
      rcases lt_trichotomy key k with hc | hc | hc
      · rw [BstRec.bst_delete.eq_def]
        simp only [if_pos hc]
        simp only [isBST, Bool.and_eq_true]
        exact ⟨⟨⟨allKeys_delete l key hal, har⟩, ihl hbl⟩, hbr⟩
      · subst hc
        have hi : ¬ key < key := by omega
        rw [BstRec.bst_delete.eq_def]
        simp only [if_neg hi]
        cases l with
        | nil =>
            cases r with
            | nil => simp [isBST]
            | node a3 k3 v3 l3 r3 => simpa [isBST] using hbr
        | node a2 k2 v2 l2 r2 =>
            cases r with
            | nil => simpa [isBST] using hbl
            | node a3 k3 v3 l3 r3 =>
                have hrm := rm_spec (.node a2 k2 v2 l2 r2) (by simp)
                have hrk : rightmostKey (.node a2 k2 v2 l2 r2) < key := by
                  simpa using allKeys_rightmostKey (.node a2 k2 v2 l2 r2) hal (by simp)
                simp only [hrm]
                simp only [isBST, Bool.and_eq_true]
                refine ⟨⟨⟨removeRightmost_lt _ hbl (by simp), ?_⟩,
                  isBST_removeRightmost _ hbl⟩, ?_⟩
                · refine allKeys_mono ?_ _ har
                  intro x hx
                  simp only [decide_eq_true_eq] at hx ⊢
                  omega
                · simpa [isBST, Bool.and_eq_true] using hbr
      · have hnl : ¬ key < k := by omega
        rw [BstRec.bst_delete.eq_def]
        simp only [if_neg hnl, if_pos hc]
        simp only [isBST, Bool.and_eq_true]
        exact ⟨⟨⟨hal, allKeys_delete r key har⟩, hbl⟩, ihr hbr⟩

/-- Every reachable tree state satisfies the BST invariant. -/
theorem reachable_isBST : ∀ t : BTree, bst_reachable t → isBST t = true := by
  intro t h
  induction h with
  | init => rfl
  | ins a key value _ ih => exact isBST_insert a _ key value ih
  | del key _ ih => exact isBST_delete _ key ih

/-- A key-predicate holding everywhere holds of every in-order key. -/
theorem allKeys_mem {p : Int → Bool} : ∀ t : BTree, allKeys p t = true →
    ∀ x ∈ t.inorderKeys, p x = true := by
  intro t
  induction t with
  | nil => intro _ x hx; simp [BTree.inorderKeys] at hx
  | node a k v l r ihl ihr =>
      intro h x hx
      simp only [allKeys, Bool.and_eq_true] at h
      simp only [BTree.inorderKeys, List.mem_append, List.mem_cons] at hx
      rcases hx with hx | hx | hx
      · exact ihl h.1.2 x hx
      · exact hx ▸ h.1.1
      · exact ihr h.2 x hx

/-- The in-order key sequence of a BST is strictly increasing. -/
theorem isBST_pairwise : ∀ t : BTree, isBST t = true →
    List.Pairwise (· < ·) t.inorderKeys := by
  intro t
  induction t with
  | nil => intro _; simp [BTree.inorderKeys]
  | node a k v l r ihl ihr =>
      intro h
      simp only [isBST, Bool.and_eq_true] at h
      obtain ⟨⟨⟨hal, har⟩, hbl⟩, hbr⟩ := h
      simp only [BTree.inorderKeys]
      rw [List.pairwise_append]
      refine ⟨ihl hbl, ?_, ?_⟩
      · rw [List.pairwise_cons]
        refine ⟨?_, ihr hbr⟩
        intro y hy
        simpa using allKeys_mem r har y hy
      · intro x hx y hy
        have hxk : x < k := by simpa using allKeys_mem l hal x hx
        simp only [List.mem_cons] at hy
        rcases hy with rfl | hy
        · exact hxk
        · have hky : k < y := by simpa using allKeys_mem r har y hy
          omega

/-- C6: for every non-empty tree reachable through the insert/delete
interface, the in-order traversal emits keys in strictly ascending order; and
on the scenario tree (insert `'b'→2, 'a'→1, 'd'→4, 'c'→3`), in-order yields
`[a,1],[b,2],[c,3],[d,4]` and preorder yields `[b,2],[a,1],[d,4],[c,3]`, for
both variants. -/
theorem claim_C6 :
    (∀ t : BTree, bst_reachable t → t ≠ .nil →
        List.Pairwise (· < ·) t.inorderKeys)
    ∧ BstIter.bst_inorder sampleTree = [(97, 1), (98, 2), (99, 3), (100, 4)]
    ∧ BstIter.bst_preorder sampleTree = [(98, 2), (97, 1), (100, 4), (99, 3)]
    ∧ BstRec.bst_inorder sampleTree = [(97, 1), (98, 2), (99, 3), (100, 4)]
    ∧ BstRec.bst_preorder sampleTree = [(98, 2), (97, 1), (100, 4), (99, 3)] := by
  refine ⟨?_, by decide, by decide, by decide, by decide⟩
  intro t hreach _
  exact isBST_pairwise t (reachable_isBST t hreach)

/-- Witness for C6: the sortedness statement applied to the scenario tree,
reachable by its four inserts. -/
theorem claim_C6_witness :
    List.Pairwise (· < ·) sampleTree.inorderKeys :=
  claim_C6.1 sampleTree
    (bst_reachable.ins 3 99 3 (bst_reachable.ins 2 100 4
      (bst_reachable.ins 1 97 1 (bst_reachable.ins 0 98 2 bst_reachable.init))))
    (by decide)

/-! ### Stack occupancy of the iterative operations (C10) -/

/-- A left spine is no longer than the tree is deep. -/
theorem preSpine_length_le : ∀ t : BTree, (preSpine t).length ≤ t.depth := by
  intro t
  induction t with
  | nil => simp [preSpine, BTree.depth]
  | node a k v l r ihl ihr =>
      simp only [preSpine, List.length_append, List.length_cons, List.length_nil,
        BTree.depth]
      omega

/-- A postorder left spine is no longer than the tree is deep. -/
theorem postSpine_length_le : ∀ t : BTree, (postSpine t).length ≤ t.depth := by
  intro t
  induction t with
  | nil => simp [postSpine, BTree.depth]
  | node a k v l r ihl ihr =>
      simp only [postSpine, List.length_append, List.length_cons, List.length_nil,
        BTree.depth]
      omega

/-- Pushing a left spine raises the preorder/inorder stack bound by at most
the subtree's depth. -/
theorem pathBound_spine_le : ∀ (u : BTree) (rest : List BTree),
    pathBound (preSpine u ++ rest) ≤ max (u.depth + rest.length) (pathBound rest) := by
  intro u
  induction u with
  | nil =>
      intro rest
      simp only [preSpine, List.nil_append]
      exact Nat.le_max_right _ _
  | node a k v l r ihl ihr =>
      intro rest
      have h1 := ihl (BTree.node a k v l r :: rest)
      simp only [preSpine, List.append_assoc, List.cons_append, List.nil_append] at h1 ⊢
      simp only [pathBound, BTree.right, BTree.depth, List.length_cons] at h1 ⊢
      omega

/-- The preorder loop's stack stays within the stack bound. -/
theorem preLoopMax_le : ∀ (fuel : Nat) (st : List BTree),
    preLoopMax fuel st ≤ pathBound st := by
  intro fuel
  induction fuel with
  | zero => intro st; simp [preLoopMax]
  | succ fuel ih =>
      intro st
      cases st with
      | nil => simp [preLoopMax]
      | cons t st' =>
          rw [preLoopMax]
          simp only [leftmostPre_eq]
          have h1 := ih (preSpine t.right ++ st')
          have h2 := pathBound_spine_le t.right st'
          have h3 := preSpine_length_le t.right
          simp only [pathBound, List.length_append] at h1 h2 ⊢
          omega

/-- The iterative preorder's stack occupancy never exceeds the tree's
depth. -/
theorem preorder_maxOcc_le (t : BTree) : bst_preorder_maxOcc t ≤ t.depth := by
  unfold bst_preorder_maxOcc
  simp only [leftmostPre_eq]
  have h1 := preLoopMax_le t.size (preSpine t ++ [])
  have h2 := pathBound_spine_le t []
  have h3 := preSpine_length_le t
  simp only [pathBound, List.length_append, List.length_nil] at h1 h2 ⊢
  omega

/-- The inorder loop's stack stays within the stack bound. -/
theorem inLoopMax_le : ∀ (fuel : Nat) (st : List BTree),
    inLoopMax fuel st ≤ pathBound st := by
  intro fuel
  induction fuel with
  | zero => intro st; simp [inLoopMax]
  | succ fuel ih =>
      intro st
      cases st with
      | nil => simp [inLoopMax]
      | cons t st' =>
          rw [inLoopMax]
          simp only [leftmostIn_eq]
          have h1 := ih (preSpine t.right ++ st')
          have h2 := pathBound_spine_le t.right st'
          have h3 := preSpine_length_le t.right
          simp only [pathBound, List.length_append] at h1 h2 ⊢
          omega

/-- The iterative inorder's stack occupancy never exceeds the tree's depth. -/
theorem inorder_maxOcc_le (t : BTree) : bst_inorder_maxOcc t ≤ t.depth := by
  unfold bst_inorder_maxOcc
  simp only [leftmostIn_eq]
  have h1 := inLoopMax_le t.size (preSpine t ++ [])
  have h2 := pathBound_spine_le t []
  have h3 := preSpine_length_le t
  simp only [pathBound, List.length_append, List.length_nil] at h1 h2 ⊢
  omega

/-- Peak stack length over a postorder run that starts by pushing a left
spine: exactly the subtree's depth above the base stack (or the base's own
peak). -/
theorem postOcc_spine : ∀ (u : BTree) (rest : List (BTree × Bool)),
    max ((postSpine u ++ rest).length) (postBound (postSpine u ++ rest))
      = max (u.depth + rest.length) (max rest.length (postBound rest)) := by
  intro u
  induction u with
  | nil =>
      intro rest
      simp only [postSpine, List.nil_append, BTree.depth, Nat.zero_add]
      omega
  | node a k v l r ihl ihr =>
      intro rest
      have h1 := ihl ((BTree.node a k v l r, true) :: rest)
      simp only [postSpine, List.append_assoc, List.cons_append, List.nil_append] at h1 ⊢
      simp only [postBound, BTree.right, BTree.depth, List.length_cons] at h1 ⊢
      omega

/-- With sufficient fuel, the postorder loop's peak stack length is exactly
the `postBound` of the stack. -/
theorem postLoopMax_eq : ∀ (fuel : Nat) (st : List (BTree × Bool)),
    postMeasure st ≤ fuel → postLoopMax fuel st = postBound st := by
  intro fuel
  induction fuel with
  | zero =>
      intro st h
      cases st with
      | nil => rfl
      | cons p st' =>
          exfalso
          rcases p with ⟨t, b⟩
          cases b <;> simp [postMeasure] at h
  | succ fuel ih =>
      intro st h
      cases st with
      | nil => rfl
      | cons p st' =>
          rcases p with ⟨t, b⟩
          cases b with
          | false =>
              rw [postLoopMax]
              simp only [Bool.false_eq_true, if_false]
              rw [ih st' (by simp [postMeasure] at h ⊢; omega)]
              simp [postBound]
          | true =>
              have hm : postMeasure (postSpine t.right ++ (t, false) :: st') ≤ fuel := by
                have h1 := postMeasure_spine t.right
                simp [postMeasure, List.map_append, List.sum_append] at h h1 ⊢
                omega
              rw [postLoopMax]
              simp only [leftmostPost_eq, eq_self_iff_true, if_true]
              rw [ih _ hm]
              have hG := postOcc_spine t.right ((t, false) :: st')
              simp only [postBound, List.length_cons] at hG ⊢
              omega

/-- The iterative postorder's stack occupancy is exactly the tree's depth
(each stacked node is an ancestor of the current one, and the deepest path is
fully stacked when its leaf is reached). -/
theorem postorder_maxOcc_eq (t : BTree) : bst_postorder_maxOcc t = t.depth := by
  unfold bst_postorder_maxOcc
  simp only [leftmostPost_eq]
  rw [postLoopMax_eq (2 * t.size) (postSpine t ++ []) (by simp [postMeasure_spine])]
  have hG := postOcc_spine t []
  simp only [postBound, List.length_nil] at hG ⊢
  omega

/-- The dispose loop's stack stays within depth of the current subtree plus
the bound of the stacked subtrees. -/
theorem disposeLoopMax_le : ∀ (fuel : Nat) (t : BTree) (st : List BTree),
    disposeLoopMax fuel t st ≤ max (t.depth + st.length) (dispBound st) := by
  intro fuel
  induction fuel with
  | zero => intro t st; simp [disposeLoopMax]
  | succ fuel ih =>
      intro t st
      cases t with
      | nil =>
          cases st with
          | nil => simp [disposeLoopMax]
          | cons s st' =>
              rw [disposeLoopMax]
              have h1 := ih s st'
              simp only [dispBound, BTree.depth, List.length_cons] at h1 ⊢
              omega
      | node a k v l r =>
          by_cases hr : r = BTree.nil
          · subst hr
            rw [disposeLoopMax, if_pos rfl]
            have h1 := ih l st
            simp only [BTree.depth] at h1 ⊢
            omega
          · rw [disposeLoopMax, if_neg hr]
            have h1 := ih l (r :: st)
            simp only [dispBound, BTree.depth, List.length_cons] at h1 ⊢
            omega

/-- The iterative dispose's stack occupancy never exceeds the tree's depth. -/
theorem dispose_maxOcc_le (t : BTree) : bst_dispose_maxOcc t ≤ t.depth := by
  unfold bst_dispose_maxOcc
  have h1 := disposeLoopMax_le (2 * t.size + 1) t []
  simp only [dispBound, List.length_nil] at h1
  omega

/-- C10: the auxiliary stacks are fixed arrays of capacity `MAXSTACK = 30`
with no overflow check at the push sites; over the four stack-driven
operations together, every push stays within that capacity exactly when the
tree's depth is at most `30` — the preorder, inorder and dispose stacks stay
within the depth, and the postorder stack reaches exactly the depth, so a
deeper tree overflows its postorder (and possibly other) stacks. -/
theorem claim_C10 :
    MAXSTACK = 30
    ∧ ∀ t : BTree,
        (bst_preorder_maxOcc t ≤ MAXSTACK ∧ bst_inorder_maxOcc t ≤ MAXSTACK
          ∧ bst_postorder_maxOcc t ≤ MAXSTACK ∧ bst_dispose_maxOcc t ≤ MAXSTACK)
        ↔ t.depth ≤ MAXSTACK := by
  refine ⟨rfl, ?_⟩
  intro t
  constructor
  · intro h
    rw [← postorder_maxOcc_eq t]
    exact h.2.2.1
  · intro h
    have h1 := preorder_maxOcc_le t
    have h2 := inorder_maxOcc_le t
    have h3 := postorder_maxOcc_eq t
    have h4 := dispose_maxOcc_le t
    omega
